import Mathlib

/-!
Verification of the ssh-packet wire codec and secure packet framer.

The definitions below are a shallow embedding of the source files:
Packet.from_reader and Packet.to_writer in src/packet/mod.rs, the
Lengthed helper in src/kex/lengthed.rs, the Bytes codec in
src/arch/bytes.rs, the userauth Request and Method types in
src/userauth.rs, and StringAscii.new in src/arch/string.rs.

Bytes are modelled as natural numbers, byte buffers as lists of
naturals, streams as lists consumed from the front, and fallible
code as Except values.  The cipher-suite capability (whose trait
files cipher.rs and mac.rs are not part of src/) is modelled from
the spec as a record of functions; the in-place encrypt and decrypt
operations carry length-preservation proofs because in-place Rust
mutation cannot change a buffer length.

Each framing function additionally returns a trace of the cipher
and stream operations it performed, in order, so that ordering
claims (MAC verified before decryption, and so on) can be stated
as facts about the trace.
-/

namespace Ssh

/-- Maximum size for a SSH packet, from src/packet/mod.rs (u16::MAX). -/
def PACKET_MAX_SIZE : Nat := 65535

/-- Maximum size constant from src/lib.rs (u16::MAX), used by Lengthed. -/
def MAX_SIZE : Nat := 65535

/-- Big-endian u32 from the first four bytes of a list, as u32::from_be_bytes. -/
def u32ofBE : List Nat → Nat
  | a :: b :: c :: d :: _ => ((a * 256 + b) * 256 + c) * 256 + d
  | _ => 0

/-- Big-endian byte encoding of a usize cast to u32, as (n as u32).to_be_bytes. -/
def u32toBE (n : Nat) : List Nat :=
  [n / 16777216 % 256, n / 65536 % 256, n / 256 % 256, n % 256]

theorem u32toBE_length (n : Nat) : (u32toBE n).length = 4 := rfl

theorem u32ofBE_u32toBE (n : Nat) (h : n < 4294967296) : u32ofBE (u32toBE n) = n := by
  simp only [u32ofBE, u32toBE]
  omega

/-- One observable operation performed by the framer, in order. -/
inductive Event
  | readE (n : Nat)
  | decryptE (data : List Nat)
  | encryptE (data : List Nat)
  | openE (data mac : List Nat) (seq : Nat)
  | sealE (data : List Nat) (seq : Nat)
  deriving DecidableEq, Repr

/-- Failure outcomes of Packet.from_reader, from src/packet/mod.rs. -/
inductive FrameError
  | ioEof
  | panic
  | oversized (len : Nat)
  | tooSmall (len : Nat)
  | paddingTooLarge (padlen len : Nat)
  | authFailed
  deriving DecidableEq, Repr

/-- Modelled from the spec: the CipherSuite capability of section 6, standing in
for the OpeningCipher, SealingCipher and Mac traits whose files
(src/packet/cipher.rs and src/packet/mac.rs) are not under src/.  Fields:
block size, MAC size, the encrypt-then-mac flag, in-place encrypt and
decrypt (length preserving, as in-place Rust mutation), compression and
decompression, the padding-length policy, the pad operation producing
padlen byte, data and padding, MAC creation (seal) and verification (opn). -/
structure Cipher where
  blockSize : Nat
  macSize : Nat
  etm : Bool
  encrypt : List Nat → List Nat
  decrypt : List Nat → List Nat
  compress : List Nat → List Nat
  decompress : List Nat → List Nat
  padding : Nat → Nat
  pad : List Nat → Nat → List Nat
  sealOp : List Nat → Nat → List Nat
  opn : List Nat → List Nat → Nat → Bool
  encrypt_length : ∀ l, (encrypt l).length = l.length
  decrypt_length : ∀ l, (decrypt l).length = l.length

/-- The tail of Packet.from_reader after MAC verification (src/packet/mod.rs,
lines 77 to 95): split off the padding-length byte at offset 4, reject
padding larger than len - 1, cut the payload of len - padlen - 1 bytes
starting at offset 5, and decompress it. -/
def afterMac (c : Cipher) (len : Nat) (buf : List Nat) : Except FrameError (List Nat) :=
  match buf.drop 4 with
  | [] => .error (.tooSmall len)
  | padlen :: decrypted =>
    if len - 1 < padlen then .error (.paddingTooLarge padlen len)
    else if decrypted.length < len - padlen - 1 then .error .ioEof
    else .ok (c.decompress (decrypted.take (len - padlen - 1)))

/-- Packet.from_reader from src/packet/mod.rs: read one block, decrypt it at
once unless in encrypt-then-mac mode, parse the big-endian length field,
reject oversized lengths, read the remaining len + 4 - block_size bytes and
the MAC trailer, then verify and decrypt in the mode-dependent order and
finish with afterMac.  The second component is the trace of operations. -/
def fromReader (c : Cipher) (input : List Nat) (seq : Nat) :
    Except FrameError (List Nat) × List Event :=
  let bs := c.blockSize
  if input.length < bs then (.error .ioEof, [])
  else
    let block := input.take bs
    let rest₁ := input.drop bs
    let buf₀ := if c.etm then block else c.decrypt block
    let ev₀ := if c.etm then [Event.readE bs] else [Event.readE bs, Event.decryptE block]
    if buf₀.length < 4 then (.error .panic, ev₀)
    else
      let len := u32ofBE (buf₀.take 4)
      if PACKET_MAX_SIZE < len then (.error (.oversized len), ev₀)
      else if 4 + len < bs then (.error .panic, ev₀)
      else
        let need := 4 + len - bs
        if rest₁.length < need then (.error .ioEof, ev₀)
        else
          let body := rest₁.take need
          let rest₂ := rest₁.drop need
          let ev₁ := ev₀ ++ [Event.readE need]
          if rest₂.length < c.macSize then (.error .ioEof, ev₁)
          else
            let mac := rest₂.take c.macSize
            let ev₂ := ev₁ ++ [Event.readE c.macSize]
            let buf₁ := buf₀ ++ body
            if c.etm then
              if c.opn buf₁ mac seq then
                (afterMac c len (buf₁.take 4 ++ c.decrypt (buf₁.drop 4)),
                 ev₂ ++ [Event.openE buf₁ mac seq, Event.decryptE (buf₁.drop 4)])
              else (.error .authFailed, ev₂ ++ [Event.openE buf₁ mac seq])
            else
              let buf₂ := buf₁.take bs ++ c.decrypt (buf₁.drop bs)
              let ev₃ := ev₂ ++ [Event.decryptE (buf₁.drop bs)]
              if c.opn buf₂ mac seq then
                (afterMac c len buf₂, ev₃ ++ [Event.openE buf₂ mac seq])
              else (.error .authFailed, ev₃ ++ [Event.openE buf₂ mac seq])

/-- Packet.to_writer from src/packet/mod.rs: compress, pad per the suite
policy, prepend the big-endian length of the padded buffer, then either
encrypt everything past the length field and MAC the resulting buffer
(encrypt-then-mac), or MAC the plaintext first and encrypt all of it.
The emitted bytes are the buffer followed by the MAC; the second
component is the trace of cipher operations. -/
def toWriter (c : Cipher) (payload : List Nat) (seq : Nat) : List Nat × List Event :=
  let compressed := c.compress payload
  let padded := c.pad compressed (c.padding compressed.length)
  let buf := u32toBE padded.length ++ padded
  if c.etm then
    let buf₂ := buf.take 4 ++ c.encrypt (buf.drop 4)
    let mac := c.sealOp buf₂ seq
    (buf₂ ++ mac, [Event.encryptE (buf.drop 4), Event.sealE buf₂ seq])
  else
    let mac := c.sealOp buf seq
    (c.encrypt buf ++ mac, [Event.sealE buf seq, Event.encryptE buf])

/-- The padding-length policy used for the no-op suite, following the spec:
the smallest padding of at least 4 bytes making 4 + 1 + len + padding an
exact multiple of the block size 8. -/
def noopPadding (len : Nat) : Nat :=
  let r := 8 - (5 + len) % 8
  if r < 4 then r + 8 else r

/-- Modelled from the spec: the no-op cipher suite used by the testable
round-trip property of section 8: block size 8, MAC size 0, identity
encryption, decryption and compression; pad prepends the padding-length
byte (cast to u8) and appends zero padding; sealing returns an empty MAC
and verification always accepts. -/
def noopCipher (etm : Bool) : Cipher where
  blockSize := 8
  macSize := 0
  etm := etm
  encrypt := id
  decrypt := id
  compress := id
  decompress := id
  padding := noopPadding
  pad := fun data p => (p % 256) :: (data ++ List.replicate p 0)
  sealOp := fun _ _ => []
  opn := fun _ _ _ => true
  encrypt_length := fun _ => rfl
  decrypt_length := fun _ => rfl

/-- Failure outcomes of the binrw-style decoders in src/arch and src/kex. -/
inductive ReadError
  | truncated
  | panic
  | badValue
  | badMagic
  | unknownVariant (tag : List Nat)
  deriving DecidableEq, Repr

/-- The BinWrite instance of Lengthed from src/kex/lengthed.rs: serialize the
inner value into a scratch buffer, then write the buffer length capped at
MAX_SIZE (len.min(MAX_SIZE) as u32) followed by all the scratch bytes.
The parameter is the inner value already serialized. -/
def lengthedWrite (tbytes : List Nat) : List Nat :=
  u32toBE (min tbytes.length MAX_SIZE) ++ tbytes

/-- The BinRead instance of Lengthed from src/kex/lengthed.rs: read a
big-endian u32 size, cap it at MAX_SIZE, build Vec::with_capacity(len)
(whose length is zero) and call read_exact on its slice buf[..len], which
panics whenever len is positive since the vector is empty; only for
len = 0 does the nested parse of T run, on an empty buffer, with no check
that bytes inside the region are fully consumed. -/
def lengthedRead {α : Type} (tparse : List Nat → Except ReadError α) (input : List Nat) :
    Except ReadError (α × List Nat) :=
  if input.length < 4 then .error .truncated
  else
    let size := u32ofBE (input.take 4)
    let len := min size MAX_SIZE
    if 0 < len then .error .panic
    else
      match tparse [] with
      | .error e => .error e
      | .ok a => .ok (a, input.drop 4)

/-- A minimal inner parser used to exercise lengthedRead: one byte. -/
def readByteOnly (l : List Nat) : Except ReadError Nat :=
  match l with
  | [] => .error .truncated
  | b :: _ => .ok b

/-- Modelled from the spec: the count-limited Vec of u8 read used by the Bytes
decoder.  It is provided by the binrw dependency (not part of src/), which
reads the declared count of bytes from the stream in bounded chunks, so a
declared count larger than the remaining input fails with a truncation
error before a buffer of that count is ever produced. -/
def vecU8Read (count : Nat) (input : List Nat) : Except ReadError (List Nat × List Nat) :=
  if input.length < count then .error .truncated
  else .ok (input.take count, input.drop count)

/-- The BinRead instance of Bytes from src/arch/bytes.rs: read a big-endian
u32 size, then read exactly that many bytes as a Vec of u8. -/
def bytesReadOptions (input : List Nat) : Except ReadError (List Nat × List Nat) :=
  if input.length < 4 then .error .truncated
  else vecU8Read (u32ofBE (input.take 4)) (input.drop 4)

/-- Is a byte a UTF-8 continuation byte. -/
def isCont (b : Nat) : Bool := decide (128 ≤ b) && decide (b < 192)

/-- UTF-8 validity of a byte sequence, as std str::from_utf8 checks it. -/
def utf8Valid : List Nat → Bool
  | [] => true
  | b :: l =>
    if b < 128 then utf8Valid l
    else if b < 194 then false
    else if b < 224 then
      match l with
      | c₁ :: l₂ => isCont c₁ && utf8Valid l₂
      | [] => false
    else if b < 240 then
      match l with
      | c₁ :: c₂ :: l₂ =>
        (if b = 224 then decide (160 ≤ c₁) && decide (c₁ < 192)
         else if b = 237 then decide (128 ≤ c₁) && decide (c₁ < 160)
         else isCont c₁) && isCont c₂ && utf8Valid l₂
      | _ => false
    else if b < 245 then
      match l with
      | c₁ :: c₂ :: c₃ :: l₂ =>
        (if b = 240 then decide (144 ≤ c₁) && decide (c₁ < 192)
         else if b = 244 then decide (128 ≤ c₁) && decide (c₁ < 144)
         else isCont c₁) && isCont c₂ && isCont c₃ && utf8Valid l₂
      | _ => false
    else false

/-- ASCII validity of a byte sequence, as str::is_ascii. -/
def asciiValid (l : List Nat) : Bool := l.all (fun b => decide (b < 128))

/-- The BinRead instance of the UTF-8 string type (StringUtf8 in
src/arch/string.rs): a Bytes read followed by the UTF-8 assertion. -/
def readUtf8 (input : List Nat) : Except ReadError (List Nat × List Nat) :=
  match bytesReadOptions input with
  | .error e => .error e
  | .ok (b, rest) => if utf8Valid b then .ok (b, rest) else .error .badValue

/-- The BinRead instance of the ASCII string type (StringAscii in
src/arch/string.rs): a Bytes read followed by the is_ascii assertion. -/
def readAscii (input : List Nat) : Except ReadError (List Nat × List Nat) :=
  match bytesReadOptions input with
  | .error e => .error e
  | .ok (b, rest) => if asciiValid b then .ok (b, rest) else .error .badValue

/-- Modelled from the spec: the Bool decoder (src/arch/bool.rs is not under
src/); one byte, any non-zero value decoding to true. -/
def readBool (input : List Nat) : Except ReadError (Bool × List Nat) :=
  match input with
  | [] => .error .truncated
  | b :: r => .ok (b != 0, r)

/-- Registered tag of the none method (Method::NONE in src/userauth.rs),
the ASCII bytes of the token none. -/
def tagNone : List Nat := [110, 111, 110, 101]

/-- Registered tag of the publickey method (Method::PUBLICKEY), the ASCII
bytes of the token publickey. -/
def tagPublickey : List Nat := [112, 117, 98, 108, 105, 99, 107, 101, 121]

/-- Registered tag of the password method (Method::PASSWORD), the ASCII
bytes of the token password. -/
def tagPassword : List Nat := [112, 97, 115, 115, 119, 111, 114, 100]

/-- Registered tag of the hostbased method (Method::HOSTBASED), the ASCII
bytes of the token hostbased. -/
def tagHostbased : List Nat := [104, 111, 115, 116, 98, 97, 115, 101, 100]

/-- Registered tag of the keyboard-interactive method
(Method::KEYBOARD_INTERACTIVE), the ASCII bytes of that token. -/
def tagKeyboardInteractive : List Nat :=
  [107, 101, 121, 98, 111, 97, 114, 100, 45, 105, 110, 116, 101, 114, 97, 99, 116, 105, 118, 101]

/-- The userauth Method enum from src/userauth.rs.  The calc-computed fields
(signed, change) are not stored; the optional fields they govern are the
Option payloads.  No tag is stored inside the value. -/
inductive Method
  | none
  | publickey (algorithm blob : List Nat) (signature : Option (List Nat))
  | password (password : List Nat) (newPassword : Option (List Nat))
  | hostbased (algorithm hostKey clientFqdn username signature : List Nat)
  | keyboardInteractive (language submethods : List Nat)
  deriving DecidableEq, Repr

/-- Method::as_ascii from src/userauth.rs: the SSH identifier of a method,
derived from the variant alone. -/
def Method.asAscii : Method → List Nat
  | Method.none => tagNone
  | Method.publickey _ _ _ => tagPublickey
  | Method.password _ _ => tagPassword
  | Method.hostbased _ _ _ _ _ => tagHostbased
  | Method.keyboardInteractive _ _ => tagKeyboardInteractive

/-- The binrw-generated decoder of Method from src/userauth.rs: the tag read
earlier selects, through the pre_assert guards, the single variant whose
registered tag matches; its payload fields are then decoded in order, the
boolean calc fields guarding the optional trailing fields.  A tag outside
the registered set decodes no payload byte and fails. -/
def methodRead (tag : List Nat) (input : List Nat) : Except ReadError (Method × List Nat) :=
  if tag = tagNone then .ok (Method.none, input)
  else if tag = tagPublickey then
    match readBool input with
    | .error e => .error e
    | .ok (signed, r₁) =>
      match bytesReadOptions r₁ with
      | .error e => .error e
      | .ok (algorithm, r₂) =>
        match bytesReadOptions r₂ with
        | .error e => .error e
        | .ok (blob, r₃) =>
          if signed then
            match bytesReadOptions r₃ with
            | .error e => .error e
            | .ok (sig, r₄) => .ok (Method.publickey algorithm blob (some sig), r₄)
          else .ok (Method.publickey algorithm blob Option.none, r₃)
  else if tag = tagPassword then
    match readBool input with
    | .error e => .error e
    | .ok (change, r₁) =>
      match readUtf8 r₁ with
      | .error e => .error e
      | .ok (password, r₂) =>
        if change then
          match readUtf8 r₂ with
          | .error e => .error e
          | .ok (newPassword, r₃) => .ok (Method.password password (some newPassword), r₃)
        else .ok (Method.password password Option.none, r₂)
  else if tag = tagHostbased then
    match bytesReadOptions input with
    | .error e => .error e
    | .ok (algorithm, r₁) =>
      match bytesReadOptions r₁ with
      | .error e => .error e
      | .ok (hostKey, r₂) =>
        match readAscii r₂ with
        | .error e => .error e
        | .ok (clientFqdn, r₃) =>
          match readUtf8 r₃ with
          | .error e => .error e
          | .ok (username, r₄) =>
            match bytesReadOptions r₄ with
            | .error e => .error e
            | .ok (signature, r₅) =>
              .ok (Method.hostbased algorithm hostKey clientFqdn username signature, r₅)
  else if tag = tagKeyboardInteractive then
    match readAscii input with
    | .error e => .error e
    | .ok (language, r₁) =>
      match readUtf8 r₁ with
      | .error e => .error e
      | .ok (submethods, r₂) => .ok (Method.keyboardInteractive language submethods, r₂)
  else .error (.unknownVariant tag)

/-- The userauth Request message from src/userauth.rs: magic byte 50,
username, service name, then the method tag and the tag-selected method. -/
structure Request where
  username : List Nat
  serviceName : List Nat
  method : Method
  deriving DecidableEq, Repr

/-- The binrw-generated decoder of Request from src/userauth.rs. -/
def requestRead (input : List Nat) : Except ReadError (Request × List Nat) :=
  match input with
  | [] => .error .truncated
  | b :: rest =>
    if b = 50 then
      match readUtf8 rest with
      | .error e => .error e
      | .ok (username, r₁) =>
        match readAscii r₁ with
        | .error e => .error e
        | .ok (serviceName, r₂) =>
          match readAscii r₂ with
          | .error e => .error e
          | .ok (tag, r₃) =>
            match methodRead tag r₃ with
            | .error e => .error e
            | .ok (m, r₄) => .ok (⟨username, serviceName, m⟩, r₄)
    else .error .badMagic

/-- The BinWrite instance of Bytes from src/arch/bytes.rs: write the length
as big-endian u32 then the bytes. -/
def writeBytes (b : List Nat) : List Nat := u32toBE b.length ++ b

/-- The Bool encoder: canonical single byte 0 or 1. -/
def writeBool (b : Bool) : List Nat := [if b then 1 else 0]

/-- The payload fields of each Method variant as written by the binrw
encoder, after the tag: the calc-computed booleans signed and change are
derived from the presence of the optional fields. -/
def methodPayloadWrite : Method → List Nat
  | Method.none => []
  | Method.publickey algorithm blob signature =>
      writeBool signature.isSome ++ writeBytes algorithm ++ writeBytes blob
        ++ (match signature with | some s => writeBytes s | Option.none => [])
  | Method.password password newPassword =>
      writeBool newPassword.isSome ++ writeBytes password
        ++ (match newPassword with | some s => writeBytes s | Option.none => [])
  | Method.hostbased algorithm hostKey clientFqdn username signature =>
      writeBytes algorithm ++ writeBytes hostKey ++ writeBytes clientFqdn
        ++ writeBytes username ++ writeBytes signature
  | Method.keyboardInteractive language submethods =>
      writeBytes language ++ writeBytes submethods

/-- The binrw-generated encoder of Request from src/userauth.rs: magic byte,
username, service name, then the tag computed by Method.asAscii (the
bw calc field) followed by the method payload. -/
def requestWrite (r : Request) : List Nat :=
  [50] ++ writeBytes r.username ++ writeBytes r.serviceName
    ++ writeBytes r.method.asAscii ++ methodPayloadWrite r.method

/-- Rust char::is_ascii: the code point is at most 0x7F. -/
def charIsAscii (c : Char) : Bool := decide (c.toNat ≤ 127)

/-- StringAscii::new from src/arch/string.rs: keep only the ASCII characters
of the input string, in order, and build the value from them. -/
def stringAsciiNew (s : List Char) : List Char := s.filter charIsAscii

theorem take_length_eq {l : List Nat} {n : Nat} (h : n ≤ l.length) :
    (l.take n).length = n := by
  simp [List.length_take]
  omega

/-- Characterization of fromReader in encrypt-then-mac mode, once the stream
holds a whole frame and the length field is in bounds: the MAC is checked
over the undecrypted buffer and only then is everything past the length
field decrypted; on a failed check nothing is decrypted at all. -/
theorem fromReader_etm_eq (c : Cipher) (input : List Nat) (seq : Nat) (len : Nat)
    (hetm : c.etm = true) (h4 : 4 ≤ c.blockSize) (hin : c.blockSize ≤ input.length)
    (hlen : len = u32ofBE (input.take 4))
    (hmax : len ≤ PACKET_MAX_SIZE) (hfit : c.blockSize ≤ 4 + len)
    (hav : 4 + len + c.macSize ≤ input.length) :
    fromReader c input seq =
      (if c.opn (input.take (4 + len)) ((input.drop (4 + len)).take c.macSize) seq then
        (afterMac c len
          ((input.take (4 + len)).take 4 ++ c.decrypt ((input.take (4 + len)).drop 4)),
         [Event.readE c.blockSize, Event.readE (4 + len - c.blockSize),
          Event.readE c.macSize,
          Event.openE (input.take (4 + len)) ((input.drop (4 + len)).take c.macSize) seq,
          Event.decryptE ((input.take (4 + len)).drop 4)])
      else
        (.error .authFailed,
         [Event.readE c.blockSize, Event.readE (4 + len - c.blockSize),
          Event.readE c.macSize,
          Event.openE (input.take (4 + len)) ((input.drop (4 + len)).take c.macSize) seq])) := by
  have hbl : (input.take c.blockSize).length = c.blockSize := take_length_eq hin
  have htt : (input.take c.blockSize).take 4 = input.take 4 := by
    rw [List.take_take]
    congr 1
    omega
  have hjoin : input.take c.blockSize ++ (input.drop c.blockSize).take (4 + len - c.blockSize)
      = input.take (4 + len) := by
    rw [← List.take_add]
    congr 1
    omega
  have hdd : (input.drop c.blockSize).drop (4 + len - c.blockSize) = input.drop (4 + len) := by
    rw [List.drop_drop]
    congr 1
    omega
  have hdl : (input.drop c.blockSize).length = input.length - c.blockSize := by
    simp [List.length_drop]
  simp only [fromReader, hetm, if_true]
  rw [if_neg (by omega : ¬ input.length < c.blockSize)]
  rw [if_neg (by rw [hbl]; omega : ¬ (input.take c.blockSize).length < 4)]
  rw [htt, ← hlen]
  rw [if_neg (by simp only [PACKET_MAX_SIZE] at hmax ⊢; omega : ¬ PACKET_MAX_SIZE < len)]
  rw [if_neg (by omega : ¬ 4 + len < c.blockSize)]
  rw [if_neg (by rw [hdl]; omega : ¬ (input.drop c.blockSize).length < 4 + len - c.blockSize)]
  rw [hjoin, hdd]
  rw [if_neg (by
    simp only [List.length_drop]
    omega : ¬ (input.drop (4 + len)).length < c.macSize)]
  simp

/-- Characterization of fromReader outside encrypt-then-mac mode, once the
stream holds a whole frame and the length field is in bounds: the first
block is decrypted immediately, the remainder is decrypted next, and the
MAC is verified last, over the full plaintext. -/
theorem fromReader_noetm_eq (c : Cipher) (input : List Nat) (seq : Nat) (len : Nat)
    (hetm : c.etm = false) (h4 : 4 ≤ c.blockSize) (hin : c.blockSize ≤ input.length)
    (hlen : len = u32ofBE ((c.decrypt (input.take c.blockSize)).take 4))
    (hmax : len ≤ PACKET_MAX_SIZE) (hfit : c.blockSize ≤ 4 + len)
    (hav : 4 + len + c.macSize ≤ input.length) :
    fromReader c input seq =
      (let body := (input.drop c.blockSize).take (4 + len - c.blockSize)
       let mac := (input.drop (4 + len)).take c.macSize
       let plain := c.decrypt (input.take c.blockSize) ++ c.decrypt body
       ((if c.opn plain mac seq then afterMac c len plain else .error .authFailed),
        [Event.readE c.blockSize, Event.decryptE (input.take c.blockSize),
         Event.readE (4 + len - c.blockSize), Event.readE c.macSize,
         Event.decryptE body, Event.openE plain mac seq])) := by
  have hbl : (input.take c.blockSize).length = c.blockSize := take_length_eq hin
  have hDl : (c.decrypt (input.take c.blockSize)).length = c.blockSize := by
    rw [c.decrypt_length, hbl]
  have hdd : (input.drop c.blockSize).drop (4 + len - c.blockSize) = input.drop (4 + len) := by
    rw [List.drop_drop]
    congr 1
    omega
  have hdl : (input.drop c.blockSize).length = input.length - c.blockSize := by
    simp [List.length_drop]
  have htl : (c.decrypt (input.take c.blockSize)
      ++ (input.drop c.blockSize).take (4 + len - c.blockSize)).take c.blockSize
      = c.decrypt (input.take c.blockSize) := List.take_left' hDl
  have hdr : (c.decrypt (input.take c.blockSize)
      ++ (input.drop c.blockSize).take (4 + len - c.blockSize)).drop c.blockSize
      = (input.drop c.blockSize).take (4 + len - c.blockSize) := List.drop_left' hDl
  simp only [fromReader, hetm, Bool.false_eq_true, if_false]
  rw [if_neg (by omega : ¬ input.length < c.blockSize)]
  rw [if_neg (by rw [hDl]; omega : ¬ (c.decrypt (input.take c.blockSize)).length < 4)]
  rw [← hlen]
  rw [if_neg (by simp only [PACKET_MAX_SIZE] at hmax ⊢; omega : ¬ PACKET_MAX_SIZE < len)]
  rw [if_neg (by omega : ¬ 4 + len < c.blockSize)]
  rw [if_neg (by rw [hdl]; omega : ¬ (input.drop c.blockSize).length < 4 + len - c.blockSize)]
  rw [htl, hdr, hdd]
  rw [if_neg (by
    simp only [List.length_drop]
    omega : ¬ (input.drop (4 + len)).length < c.macSize)]
  split <;> simp

/-- Characterization of fromReader when the parsed length field exceeds the
maximum packet size: the oversized error is returned with only the first
block read, and, outside encrypt-then-mac mode, that block decrypted. -/
theorem fromReader_oversized_eq (c : Cipher) (input : List Nat) (seq : Nat) (len : Nat)
    (h4 : 4 ≤ c.blockSize) (hin : c.blockSize ≤ input.length)
    (hlen : len = u32ofBE
      ((if c.etm then input.take c.blockSize else c.decrypt (input.take c.blockSize)).take 4))
    (hmax : PACKET_MAX_SIZE < len) :
    fromReader c input seq =
      (.error (.oversized len),
       if c.etm then [Event.readE c.blockSize]
       else [Event.readE c.blockSize, Event.decryptE (input.take c.blockSize)]) := by
  have hbl : (input.take c.blockSize).length = c.blockSize := take_length_eq hin
  cases hetm : c.etm with
  | true =>
    rw [hetm] at hlen
    simp only [if_true] at hlen
    simp only [fromReader, hetm, if_true]
    rw [if_neg (by omega : ¬ input.length < c.blockSize)]
    rw [if_neg (by rw [hbl]; omega : ¬ (input.take c.blockSize).length < 4)]
    rw [← hlen]
    rw [if_pos hmax]
  | false =>
    rw [hetm] at hlen
    simp only [Bool.false_eq_true, if_false] at hlen
    have hDl : (c.decrypt (input.take c.blockSize)).length = c.blockSize := by
      rw [c.decrypt_length, hbl]
    simp only [fromReader, hetm, Bool.false_eq_true, if_false]
    rw [if_neg (by omega : ¬ input.length < c.blockSize)]
    rw [if_neg (by rw [hDl]; omega : ¬ (c.decrypt (input.take c.blockSize)).length < 4)]
    rw [← hlen]
    rw [if_pos hmax]

theorem noopPadding_ge4 (L : Nat) : 4 ≤ noopPadding L := by
  simp only [noopPadding]
  split <;> omega

theorem noopPadding_lt256 (L : Nat) : noopPadding L < 256 := by
  simp only [noopPadding]
  split <;> omega

theorem noopPadding_le (L : Nat) (h : L ≤ 65527) : 1 + L + noopPadding L ≤ 65535 := by
  simp only [noopPadding]
  split <;> omega

/-- The bytes emitted by to_writer under the no-op suite: the length field
over 1 + payload length + padding, then the padding byte, the payload and
the zero padding. -/
theorem toWriter_noop (e : Bool) (payload : List Nat) (seq : Nat) :
    (toWriter (noopCipher e) payload seq).1 =
      u32toBE (1 + payload.length + noopPadding payload.length)
        ++ noopPadding payload.length :: (payload ++ List.replicate (noopPadding payload.length) 0) := by
  have hm : noopPadding payload.length % 256 = noopPadding payload.length :=
    Nat.mod_eq_of_lt (noopPadding_lt256 _)
  cases e with
  | true =>
    simp only [toWriter, noopCipher, id_eq, if_true, List.take_append_drop, List.append_nil, hm]
    congr 2
    simp [List.length_replicate]
    omega
  | false =>
    simp only [toWriter, noopCipher, id_eq, Bool.false_eq_true, if_false, List.append_nil, hm]
    congr 2
    simp [List.length_replicate]
    omega

/-- The afterMac tail under the no-op suite recovers exactly the payload. -/
theorem afterMac_noop (e : Bool) (payload : List Nat) (p len : Nat)
    (hp : 4 ≤ p) (hlen : len = 1 + payload.length + p) :
    afterMac (noopCipher e) len
      (u32toBE len ++ p :: (payload ++ List.replicate p 0)) = .ok payload := by
  have hdrop4 : (u32toBE len ++ p :: (payload ++ List.replicate p 0)).drop 4
      = p :: (payload ++ List.replicate p 0) := List.drop_left' (u32toBE_length len)
  unfold afterMac
  rw [hdrop4]
  simp only []
  rw [if_neg (by omega)]
  rw [if_neg (by simp [List.length_append, List.length_replicate]; omega)]
  have hL : len - p - 1 = payload.length := by omega
  rw [hL, List.take_left' rfl]
  rfl

/-- Claim C1: in Packet::from_reader, when the cipher MAC mode is
encrypt-then-mac, the MAC is verified over the sequence number, length
field and ciphertext before any bytes past the length field are decrypted,
and the remainder is decrypted only after successful verification; when
the MAC mode is not encrypt-then-mac, the first block is decrypted
immediately after being read, the remainder past the first block is
decrypted, and only then is the MAC verified over the full plaintext.
The operation traces make the order explicit. -/
theorem claim_C1_read_order (c : Cipher) (input : List Nat) (seq : Nat) (len : Nat)
    (h4 : 4 ≤ c.blockSize) (hin : c.blockSize ≤ input.length)
    (hlen : len = u32ofBE ((if c.etm then input.take c.blockSize
        else c.decrypt (input.take c.blockSize)).take 4))
    (hmax : len ≤ PACKET_MAX_SIZE) (hfit : c.blockSize ≤ 4 + len)
    (hav : 4 + len + c.macSize ≤ input.length) :
    (c.etm = true →
      (c.opn (input.take (4 + len)) ((input.drop (4 + len)).take c.macSize) seq = true →
        (fromReader c input seq).2 =
          [Event.readE c.blockSize, Event.readE (4 + len - c.blockSize),
           Event.readE c.macSize,
           Event.openE (input.take (4 + len)) ((input.drop (4 + len)).take c.macSize) seq,
           Event.decryptE ((input.take (4 + len)).drop 4)])
      ∧ (c.opn (input.take (4 + len)) ((input.drop (4 + len)).take c.macSize) seq = false →
        fromReader c input seq =
          (.error .authFailed,
           [Event.readE c.blockSize, Event.readE (4 + len - c.blockSize),
            Event.readE c.macSize,
            Event.openE (input.take (4 + len)) ((input.drop (4 + len)).take c.macSize) seq])))
    ∧ (c.etm = false →
      (fromReader c input seq).2 =
        [Event.readE c.blockSize, Event.decryptE (input.take c.blockSize),
         Event.readE (4 + len - c.blockSize), Event.readE c.macSize,
         Event.decryptE ((input.drop c.blockSize).take (4 + len - c.blockSize)),
         Event.openE (c.decrypt (input.take c.blockSize)
             ++ c.decrypt ((input.drop c.blockSize).take (4 + len - c.blockSize)))
           ((input.drop (4 + len)).take c.macSize) seq]) := by
  constructor
  · intro hetm
    have hlen' : len = u32ofBE (input.take 4) := by
      rw [hlen, hetm]
      simp only [if_true]
      rw [List.take_take]
      congr 2
      omega
    have H := fromReader_etm_eq c input seq len hetm h4 hin hlen' hmax hfit hav
    constructor
    · intro hopn
      rw [H, if_pos hopn]
    · intro hopn
      rw [H, if_neg (by simp [hopn])]
  · intro hetm
    have hlen' : len = u32ofBE ((c.decrypt (input.take c.blockSize)).take 4) := by
      rw [hlen, hetm]
      simp
    have H := fromReader_noetm_eq c input seq len hetm h4 hin hlen' hmax hfit hav
    rw [H]

/-- Witness for claim C1: a concrete encrypt-then-mac run over the no-op
suite showing the MAC verification event strictly preceding the decryption
of the remainder. -/
theorem claim_C1_read_order_witness :
    (fromReader (noopCipher true) [0, 0, 0, 8, 3, 1, 2, 3, 9, 9, 9, 0] 0).2 =
      [Event.readE 8, Event.readE 4, Event.readE 0,
       Event.openE [0, 0, 0, 8, 3, 1, 2, 3, 9, 9, 9, 0] [] 0,
       Event.decryptE [3, 1, 2, 3, 9, 9, 9, 0]] :=
  ((claim_C1_read_order (noopCipher true) [0, 0, 0, 8, 3, 1, 2, 3, 9, 9, 9, 0] 0 8
      (by decide) (by decide) (by decide) (by decide) (by decide) (by decide)).1 rfl).1 rfl

/-- Claim C2: in Packet::to_writer, under encrypt-then-mac everything in the
assembled plaintext except the 4-byte length field is encrypted, the MAC is
computed over the length field and ciphertext with the sequence number, and
the emitted bytes are length field, ciphertext, MAC; otherwise the MAC is
computed over the full plaintext first, the entire plaintext including the
length field is encrypted, and the emitted bytes are ciphertext then MAC.
The traces show what is encrypted and MACed, in order. -/
theorem claim_C2_write_order (c : Cipher) (payload : List Nat) (seq : Nat) :
    toWriter c payload seq =
      (let padded := c.pad (c.compress payload) (c.padding (c.compress payload).length)
       let lenField := u32toBE padded.length
       if c.etm then
         (lenField ++ c.encrypt padded ++ c.sealOp (lenField ++ c.encrypt padded) seq,
          [Event.encryptE padded, Event.sealE (lenField ++ c.encrypt padded) seq])
       else
         (c.encrypt (lenField ++ padded) ++ c.sealOp (lenField ++ padded) seq,
          [Event.sealE (lenField ++ padded) seq, Event.encryptE (lenField ++ padded)])) := by
  have ht4 : ∀ l : List Nat, (u32toBE l.length ++ l).take 4 = u32toBE l.length :=
    fun l => List.take_left' (u32toBE_length _)
  have hd4 : ∀ l : List Nat, (u32toBE l.length ++ l).drop 4 = l :=
    fun l => List.drop_left' (u32toBE_length _)
  cases hetm : c.etm with
  | true => simp [toWriter, hetm, ht4, hd4, List.append_assoc]
  | false => simp [toWriter, hetm]

/-- Claim C3: in Packet::from_reader, an input whose parsed 4-byte length
field exceeds PACKET_MAX_SIZE = 65535 fails with the oversized-packet error
immediately after the length parse: the trace holds no read beyond the
first block. -/
theorem claim_C3_oversized (c : Cipher) (input : List Nat) (seq : Nat) (len : Nat)
    (h4 : 4 ≤ c.blockSize) (hin : c.blockSize ≤ input.length)
    (hlen : len = u32ofBE ((if c.etm then input.take c.blockSize
        else c.decrypt (input.take c.blockSize)).take 4))
    (hmax : PACKET_MAX_SIZE < len) :
    fromReader c input seq =
      (.error (.oversized len),
       if c.etm then [Event.readE c.blockSize]
       else [Event.readE c.blockSize, Event.decryptE (input.take c.blockSize)]) :=
  fromReader_oversized_eq c input seq len h4 hin hlen hmax

/-- Witness for claim C3: a declared length of 69933 is rejected right after
the first block, with a single read event. -/
theorem claim_C3_oversized_witness :
    fromReader (noopCipher true) [0, 1, 17, 45, 0, 0, 0, 0] 0 =
      (.error (.oversized 69933), [Event.readE 8]) :=
  claim_C3_oversized (noopCipher true) [0, 1, 17, 45, 0, 0, 0, 0] 0 69933
    (by decide) (by decide) (by decide) (by decide)

/-- Claim C4: after decryption and MAC verification in Packet::from_reader
(the afterMac tail of the function), a padding-length byte larger than
len - 1 fails with the padding-too-large error, and otherwise the result is
exactly the plaintext bytes from offset 5 up to 5 + len - padlen - 1 passed
through the cipher decompression. -/
theorem claim_C4_padding (c : Cipher) (len : Nat) (buf : List Nat) (padlen : Nat)
    (tail : List Nat) (hbuf : buf.length = 4 + len) (hsplit : buf.drop 4 = padlen :: tail) :
    (len - 1 < padlen → afterMac c len buf = .error (.paddingTooLarge padlen len))
    ∧ (padlen ≤ len - 1 →
        afterMac c len buf = .ok (c.decompress ((buf.drop 5).take (len - padlen - 1)))) := by
  have htl : tail.length = len - 1 := by
    have h := congrArg List.length hsplit
    simp only [List.length_drop, hbuf, List.length_cons] at h
    omega
  have hd5 : buf.drop 5 = tail := by
    have h1 : (padlen :: tail).drop 1 = tail := rfl
    rw [← h1, ← hsplit, List.drop_drop]
  constructor
  · intro h
    simp only [afterMac, hsplit]
    rw [if_pos h]
  · intro h
    simp only [afterMac, hsplit]
    rw [hd5, if_neg (by omega), if_neg (by rw [htl]; omega)]

/-- Witness for claim C4: a concrete 12-byte plaintext with len 8 and padding
3 yields payload bytes 1, 2, 3, 4. -/
theorem claim_C4_padding_witness :
    afterMac (noopCipher true) 8 [0, 0, 0, 8, 3, 1, 2, 3, 4, 9, 9, 9] = .ok [1, 2, 3, 4] :=
  ((claim_C4_padding (noopCipher true) 8 [0, 0, 0, 8, 3, 1, 2, 3, 4, 9, 9, 9] 3
      [1, 2, 3, 4, 9, 9, 9] (by decide) (by decide)).2 (by decide)).trans rfl

/-- Claim C5, amended: framing with Packet::to_writer then deframing with
Packet::from_reader under the no-op suite, in both MAC-order modes and at
any sequence number, returns the original payload, provided the payload is
short enough that the assembled length field stays within PACKET_MAX_SIZE
(payload length at most 65527 under the minimal-padding policy); longer
payloads are rejected as oversized on the read side, refuting the claim
for fully arbitrary payloads. -/
theorem claim_C5_roundtrip (e : Bool) (payload : List Nat) (seq : Nat)
    (h : payload.length ≤ 65527) :
    (fromReader (noopCipher e) (toWriter (noopCipher e) payload seq).1 seq).1 = .ok payload := by
  obtain ⟨p, hp⟩ : ∃ p, noopPadding payload.length = p := ⟨_, rfl⟩
  obtain ⟨len, hlen⟩ : ∃ n, 1 + payload.length + p = n := ⟨_, rfl⟩
  have hp4 : 4 ≤ p := hp ▸ noopPadding_ge4 _
  have hmax : len ≤ 65535 := by
    have := noopPadding_le payload.length h
    omega
  rw [toWriter_noop, hp, hlen]
  obtain ⟨W, hWdef⟩ : ∃ w, u32toBE len ++ p :: (payload ++ List.replicate p 0) = w := ⟨_, rfl⟩
  rw [hWdef]
  have hWlen : W.length = 4 + len := by
    rw [← hWdef, List.length_append, List.length_cons, List.length_append,
      List.length_replicate, u32toBE_length]
    omega
  have htake4 : W.take 4 = u32toBE len := by
    rw [← hWdef]
    exact List.take_left' (u32toBE_length len)
  have hparse : u32ofBE (W.take 4) = len := by
    rw [htake4]
    exact u32ofBE_u32toBE len (by omega)
  have hWfull : W.take (4 + len) = W := by
    rw [← hWlen, List.take_length]
  have hAM : afterMac (noopCipher e) len W = .ok payload := by
    rw [← hWdef]
    exact afterMac_noop e payload p len hp4 hlen.symm
  have hbs : (noopCipher e).blockSize = 8 := rfl
  have hms : (noopCipher e).macSize = 0 := rfl
  have hin : (noopCipher e).blockSize ≤ W.length := by
    rw [hbs, hWlen]
    omega
  have hfit : (noopCipher e).blockSize ≤ 4 + len := by
    rw [hbs]
    omega
  have hav : 4 + len + (noopCipher e).macSize ≤ W.length := by
    rw [hms, hWlen]
    omega
  have hmax' : len ≤ PACKET_MAX_SIZE := by
    rw [PACKET_MAX_SIZE]
    omega
  have h4 : 4 ≤ (noopCipher e).blockSize := by
    rw [hbs]
    omega
  cases e with
  | true =>
    have H := fromReader_etm_eq (noopCipher true) W seq len rfl h4 hin hparse.symm
      hmax' hfit hav
    have hopn : (noopCipher true).opn (W.take (4 + len))
        ((W.drop (4 + len)).take (noopCipher true).macSize) seq = true := rfl
    rw [H, if_pos hopn]
    show afterMac (noopCipher true) len
      ((W.take (4 + len)).take 4 ++ (noopCipher true).decrypt ((W.take (4 + len)).drop 4))
        = .ok payload
    rw [hWfull]
    show afterMac (noopCipher true) len (W.take 4 ++ W.drop 4) = .ok payload
    rw [List.take_append_drop]
    exact hAM
  | false =>
    have hdec : ∀ l : List Nat, (noopCipher false).decrypt l = l := fun _ => rfl
    have hlen' : len = u32ofBE (((noopCipher false).decrypt
        (W.take (noopCipher false).blockSize)).take 4) := by
      rw [hdec, List.take_take]
      rw [show min 4 (noopCipher false).blockSize = 4 from rfl]
      exact hparse.symm
    have H := fromReader_noetm_eq (noopCipher false) W seq len rfl h4 hin hlen' hmax' hfit hav
    have hjoin : W.take (noopCipher false).blockSize
        ++ (W.drop (noopCipher false).blockSize).take (4 + len - (noopCipher false).blockSize)
        = W := by
      rw [← List.take_add, show (noopCipher false).blockSize
        + (4 + len - (noopCipher false).blockSize) = 4 + len by rw [hbs] at hfit ⊢; omega]
      exact hWfull
    rw [H]
    show (if (noopCipher false).opn ((noopCipher false).decrypt (W.take (noopCipher false).blockSize)
          ++ (noopCipher false).decrypt
            ((W.drop (noopCipher false).blockSize).take (4 + len - (noopCipher false).blockSize)))
          ((W.drop (4 + len)).take (noopCipher false).macSize) seq = true then
        afterMac (noopCipher false) len
          ((noopCipher false).decrypt (W.take (noopCipher false).blockSize)
            ++ (noopCipher false).decrypt
              ((W.drop (noopCipher false).blockSize).take (4 + len - (noopCipher false).blockSize)))
      else Except.error FrameError.authFailed) = .ok payload
    rw [hdec, hdec, hjoin]
    rw [if_pos (show (noopCipher false).opn W
      ((W.drop (4 + len)).take (noopCipher false).macSize) seq = true from rfl)]
    exact hAM

/-- Witness for the amended claim C5: a concrete three-byte payload framed
and deframed at sequence number 5 under the encrypt-then-mac no-op suite. -/
theorem claim_C5_roundtrip_witness :
    (fromReader (noopCipher true) (toWriter (noopCipher true) [1, 2, 3] 5).1 5).1 =
      .ok [1, 2, 3] :=
  claim_C5_roundtrip true [1, 2, 3] 5 (by decide)

/-- Counterexample to claim C5 as stated: for the 65528-byte payload the
assembled length field is 65540, which the read side rejects as oversized,
so the round trip does not return the original payload. -/
theorem claim_C5_counterexample :
    (fromReader (noopCipher true)
        (toWriter (noopCipher true) (List.replicate 65528 0) 0).1 0).1
      = .error (.oversized 65540)
    ∧ (fromReader (noopCipher true)
        (toWriter (noopCipher true) (List.replicate 65528 0) 0).1 0).1
      ≠ .ok (List.replicate 65528 0) := by
  have hpad : noopPadding 65528 = 11 := by decide
  have hsum : (1 + 65528 + 11 : Nat) = 65540 := by norm_num
  have hW := toWriter_noop true (List.replicate 65528 0) 0
  rw [List.length_replicate, hpad, hsum] at hW
  rw [hW]
  obtain ⟨W, hWdef⟩ : ∃ w,
      u32toBE 65540 ++ 11 :: (List.replicate 65528 (0 : Nat) ++ List.replicate 11 0) = w :=
    ⟨_, rfl⟩
  rw [hWdef]
  have hWlen : W.length = 65544 := by
    rw [← hWdef, List.length_append, List.length_cons, List.length_append,
      List.length_replicate, List.length_replicate, u32toBE_length]
  have htake4 : W.take 4 = u32toBE 65540 := by
    rw [← hWdef]
    exact List.take_left' (u32toBE_length _)
  have hparse : u32ofBE (W.take 4) = 65540 := by
    rw [htake4]
    exact u32ofBE_u32toBE 65540 (by norm_num)
  have hetm : (noopCipher true).etm = true := rfl
  have hlenW : (65540 : Nat) = u32ofBE ((if (noopCipher true).etm = true
      then W.take (noopCipher true).blockSize
      else (noopCipher true).decrypt (W.take (noopCipher true).blockSize)).take 4) := by
    rw [if_pos hetm, List.take_take, show min 4 (noopCipher true).blockSize = 4 from rfl]
    exact hparse.symm
  have H := fromReader_oversized_eq (noopCipher true) W 0 65540 (by decide)
    (by rw [hWlen]; decide) hlenW (by decide)
  rw [H]
  exact ⟨rfl, fun hcon => Except.noConfusion hcon⟩

/-- Claim C6 evidence: the Lengthed encoder, given an inner value whose
serialization holds 65536 bytes, returns successfully with a length prefix
of only 65535 followed by all 65536 content bytes, so the prefix is smaller
than the content that follows and no hard error is raised, contradicting
the claim. -/
theorem claim_C6_lengthed_write_truncates :
    lengthedWrite (List.replicate 65536 1) = u32toBE 65535 ++ List.replicate 65536 1
    ∧ 65535 < (List.replicate 65536 (1 : Nat)).length := by
  constructor
  · simp only [lengthedWrite, List.length_replicate]
    rw [show min 65536 MAX_SIZE = 65535 from by rw [MAX_SIZE]; omega]
  · rw [List.length_replicate]
    norm_num

/-- Claim C7 evidence: decoding a Lengthed value whose length field is 1
reaches read_exact over the slice of an empty Vec::with_capacity buffer
and panics, instead of decoding the inner value from the declared byte. -/
theorem claim_C7_lengthed_read_panics :
    lengthedRead readByteOnly [0, 0, 0, 1, 65] = .error .panic := rfl

/-- Claim C8: the Bytes decoder is bounds-checked; a declared 4-byte length
larger than the remaining input yields the truncation error and no value,
and otherwise exactly that many bytes are consumed. -/
theorem claim_C8_bytes_bounds (input : List Nat) (h4 : 4 ≤ input.length) :
    (input.length - 4 < u32ofBE (input.take 4) →
      bytesReadOptions input = .error .truncated)
    ∧ (u32ofBE (input.take 4) ≤ input.length - 4 →
      bytesReadOptions input = .ok ((input.drop 4).take (u32ofBE (input.take 4)),
        (input.drop 4).drop (u32ofBE (input.take 4)))) := by
  have hdl : (input.drop 4).length = input.length - 4 := by
    simp [List.length_drop]
  constructor
  · intro h
    simp only [bytesReadOptions, vecU8Read]
    rw [if_neg (by omega), if_pos (by rw [hdl]; omega)]
  · intro h
    simp only [bytesReadOptions, vecU8Read]
    rw [if_neg (by omega), if_neg (by rw [hdl]; omega)]

/-- Witness for claim C8: a declared length of 9 with one byte remaining is
rejected as truncated. -/
theorem claim_C8_bytes_bounds_witness :
    bytesReadOptions [0, 0, 0, 9, 1] = .error .truncated :=
  (claim_C8_bytes_bounds [0, 0, 0, 9, 1] (by decide)).1 (by decide)

/-- Claim C9: method dispatch reads the tag first; a tag outside the
registered set fails with the unknown-variant error independently of the
following bytes (so no payload byte is consumed); a successful decode
yields exactly the variant whose registered tag is the one read; and the
Request encoder writes the tag derived by Method.asAscii, then the payload,
the tag not being stored in the value. -/
theorem claim_C9_dispatch :
    (∀ tag input, tag ∉ [tagNone, tagPublickey, tagPassword, tagHostbased,
        tagKeyboardInteractive] → methodRead tag input = .error (.unknownVariant tag))
    ∧ (∀ tag input m rest, methodRead tag input = .ok (m, rest) → m.asAscii = tag)
    ∧ (∀ r : Request, requestWrite r = [50] ++ writeBytes r.username
        ++ writeBytes r.serviceName ++ writeBytes r.method.asAscii
        ++ methodPayloadWrite r.method) := by
  refine ⟨?_, ?_, ?_⟩
  · intro tag input htag
    simp only [List.mem_cons, List.not_mem_nil, or_false, not_or] at htag
    obtain ⟨h1, h2, h3, h4, h5⟩ := htag
    simp only [methodRead]
    rw [if_neg h1, if_neg h2, if_neg h3, if_neg h4, if_neg h5]
  · intro tag input m rest hok
    simp only [methodRead] at hok
    split_ifs at hok with h1 h2 h3 h4 h5 <;>
      (try subst h1) <;> (try subst h2) <;> (try subst h3) <;>
      (try subst h4) <;> (try subst h5) <;>
      repeat' split at hok
    all_goals (first | (exact Except.noConfusion hok) | injection hok with hpair)
    all_goals (
      injection hpair with hm hr
      subst hm
      rfl)
  · intro r
    rfl

/-- Witness for claim C9: the unregistered tag foo fails as unknown-variant
regardless of the bytes that follow. -/
theorem claim_C9_dispatch_witness :
    methodRead [102, 111, 111] [1, 2] = .error (.unknownVariant [102, 111, 111]) :=
  claim_C9_dispatch.1 [102, 111, 111] [1, 2] (by decide)

/-- Claim C10: StringAscii::new never fails and produces the input with every
non-ASCII character removed: all kept characters are ASCII, they form a
subsequence of the input (order preserved), and each character occurs as
often as in the input when it is ASCII and never otherwise. -/
theorem claim_C10_ascii_new (s : List Char) :
    ((stringAsciiNew s).all charIsAscii = true)
    ∧ (stringAsciiNew s).Sublist s
    ∧ ∀ c : Char, (stringAsciiNew s).count c = if charIsAscii c then s.count c else 0 := by
  refine ⟨?_, ?_, ?_⟩
  · simp only [stringAsciiNew, List.all_eq_true]
    intro c hc
    exact (List.mem_filter.mp hc).2
  · exact List.filter_sublist s
  · intro ch
    by_cases hch : charIsAscii ch
    · rw [if_pos hch]
      exact List.count_filter hch
    · rw [if_neg hch]
      rw [List.count_eq_zero]
      intro hmem
      exact hch (List.mem_filter.mp hmem).2

end Ssh
